import Mathlib

/-!
Verification of the distributed ImageNet evaluation harness
(`image classification/ImageNet/snn.py`).

The Python source is shallowly embedded: floats become rationals,
tensors become lists of rationals, fallible operations (Python
exceptions) become `Option`/`Except`, and the mutable objects become
records updated functionally.  The DALI reader/decoder components are
external to the repository's sources; they are modelled from the spec
where a claim depends on them, and each such definition is marked.
-/

namespace Snn

/-! ## MetricAggregator: `AverageMeter` (snn.py lines 381-396) -/

/-- The running statistic object.  `reset` zeroes all four fields,
`update` mutates them.  Python floats are modelled as rationals. -/
structure AverageMeter where
  val : ℚ
  avg : ℚ
  sum : ℚ
  count : ℚ
  deriving DecidableEq

/-- `reset(self)`: sets `val = avg = sum = count = 0`. -/
def AverageMeter.reset (_ : AverageMeter) : AverageMeter :=
  ⟨0, 0, 0, 0⟩

/-- `update(self, val, n=1)`: `self.val = val; self.sum += val*n;
self.count += n; self.avg = self.sum / self.count`.  When the updated
count is zero the Python division raises `ZeroDivisionError`, modelled
as `none`. -/
def AverageMeter.update (m : AverageMeter) (v : ℚ) (n : ℚ) : Option AverageMeter :=
  let s := m.sum + v * n
  let c := m.count + n
  if c = 0 then none
  else some ⟨v, s / c, s, c⟩

/-- A meter as produced by `AverageMeter.__init__` (which calls `reset`). -/
def meterInit : AverageMeter :=
  AverageMeter.reset ⟨0, 0, 0, 0⟩

/-! ## Cross-rank reduction: `reduce_tensor` (snn.py lines 414-418)

`rt = tensor.clone(); dist.all_reduce(rt, op=SUM); rt /= args.world_size`.
`all_reduce` with SUM hands every rank the sum of all ranks'
contributions; the code then divides by the world size.  `vals` lists
the per-rank input values; the result is the value every rank holds
after the call. -/

def reduce_tensor (vals : List ℚ) (world_size : ℕ) : ℚ :=
  vals.sum / (world_size : ℚ)

/-! ## InferenceRunner: `accuracy` (snn.py lines 398-411)

`output.topk(maxk, 1, True, True)` returns, per sample (row), the
indices of its `maxk` largest logits in descending score order; the
tie-break among equal logits is implementation-defined in PyTorch and
is fixed here by an insertion sort.  `pred.t()` / `correct[:k]` make
`correct_k` the number of matches between the true label and the first
`k` of those indices, summed over the batch; each result is that count
times `100.0 / batch_size`. -/

/-- Insert an (index, score) pair in front of the first strictly
smaller score of a descending-sorted list. -/
def insertDesc (p : ℕ × ℚ) : List (ℕ × ℚ) → List (ℕ × ℚ)
  | [] => [p]
  | q :: rest => if q.2 < p.2 then p :: q :: rest else q :: insertDesc p rest

/-- Sort (index, score) pairs by descending score (insertion sort). -/
def sortDesc (l : List (ℕ × ℚ)) : List (ℕ × ℚ) :=
  l.foldr insertDesc []

/-- The indices of the `k` largest entries of `row`, best first:
the embedding of `row.topk(k)`'s index output. -/
def topkPred (row : List ℚ) (k : ℕ) : List ℕ :=
  ((sortDesc row.enum).map Prod.fst).take k

/-- `accuracy(output, target, topk)`: for each requested `k` the count
of samples whose label matches one of the first `k` of the `maxk`
predicted indices, times `100.0 / batch_size`. -/
def accuracy (output : List (List ℚ)) (target : List ℕ) (topk : List ℕ) : List ℚ :=
  let maxk := topk.foldr max 0
  let batch_size := target.length
  let pred := output.map (fun row => topkPred row maxk)
  topk.map (fun k =>
    let correct_k : ℕ := ((pred.zip target).map (fun p => (p.1.take k).count p.2)).sum
    (correct_k : ℚ) * (100 / (batch_size : ℚ)))

/-- Restatement of the spec's words, for comparison with `accuracy`:
top-k accuracy is 100 times the fraction of samples in the batch whose
true label is among the `k` highest-scoring classes of that sample's
logits. -/
def topkAccuracySpec (output : List (List ℚ)) (target : List ℕ) (k : ℕ) : ℚ :=
  100 * (((output.zip target).countP (fun p => decide (p.2 ∈ topkPred p.1 k)) : ℕ) : ℚ)
    / ((target.length : ℕ) : ℚ)

/-! ## CheckpointStore: `main.resume` (snn.py lines 266-281) -/

/-- A well-formed checkpoint as produced by `torch.save`: the keys read
by `resume`.  The two state blobs are opaque. -/
structure Checkpoint where
  epoch : ℕ
  best_prec1 : ℚ
  state_dict : ℕ
  optimizer : ℕ
  deriving DecidableEq

/-- The mutable context `resume` splices into: `args.start_epoch`, the
global `best_prec1`, the model parameters, the optimizer state. -/
structure RunState where
  start_epoch : ℕ
  best_prec1 : ℚ
  model_state : ℕ
  optimizer_state : ℕ
  deriving DecidableEq

/-- `resume()` (local function in `main`): if `os.path.isfile(path)`
and the checkpoint loads, restore `start_epoch`, `best_prec1`, the
model state and the optimizer state from it; otherwise print a notice
and leave everything unchanged.  `fs` maps a path to the well-formed
checkpoint stored there, if any. -/
def resume (fs : String → Option Checkpoint) (path : String) (st : RunState) : RunState :=
  match fs path with
  | some c => ⟨c.epoch, c.best_prec1, c.state_dict, c.optimizer⟩
  | none => st

/-! ## ShardedDatasetReader

In the source the reader is `fn.readers.file(shard_id=..., num_shards=...,
pad_last_batch=True)` inside `create_dali_pipeline` (snn.py lines 88-94),
whose implementation lives in the DALI library, outside this
repository's sources.  The definitions below are therefore modelled
from the spec. -/

/-- Modelled from the spec: the boundary of shard `S`'s real slice.
Missing from the sources: the DALI file reader's sharding arithmetic.
Per the spec, each shard has length `⌈T/W⌉`, shards are contiguous, and
only trailing positions past the dataset's end are padding. -/
def shardStart (T W S : ℕ) : ℕ :=
  min (S * ((T + W - 1) / W)) T

/-- Modelled from the spec: the sample stream shard `S` of `W` emits
over a `T`-sample dataset.  Missing from the sources: the DALI file
reader's padding of the last batch.  Each element is
`(dataset index, is_padding)`; the shard holds its real slice followed
by repeated placeholder copies of the last sample, flagged as padding,
up to the uniform length `⌈T/W⌉`. -/
def shardSamples (T W S : ℕ) : List (ℕ × Bool) :=
  let c := (T + W - 1) / W
  let a := shardStart T W S
  let b := shardStart T W (S + 1)
  (List.range (b - a)).map (fun i => (a + i, false)) ++
    List.replicate (c - (b - a)) (T - 1, true)

/-- Modelled from the spec: a padded placeholder carries zero
aggregation weight, a real sample weight one. -/
def sampleWeight (p : ℕ × Bool) : ℕ :=
  if p.2 then 0 else 1

/-- The total aggregation weight rank `S` accumulates over one full
evaluation epoch of its shard. -/
def shardWeight (T W S : ℕ) : ℕ :=
  ((shardSamples T W S).map sampleWeight).sum

/-- The aggregator's total accumulated weight across all `W` ranks
after one full evaluation epoch. -/
def epochWeight (T W : ℕ) : ℕ :=
  ((List.range W).map (fun S => shardWeight T W S)).sum

/-- The reader's configuration error. -/
inductive ReaderError where
  | configurationError
  deriving DecidableEq

/-- Modelled from the spec: constructing the sharded reader validates
the configuration before any data is read.  Missing from the sources:
the DALI file reader's argument validation.  Per the spec it fails with
a `ConfigurationError` if `W < 1` or `S ≥ W`, and otherwise yields the
shard's sample stream. -/
def mkShardedReader (T W S : ℕ) : Except ReaderError (List (ℕ × Bool)) :=
  if W < 1 ∨ W ≤ S then .error .configurationError
  else .ok (shardSamples T W S)

/-! ## PreprocessingPipeline decode stage

In the source the decode stage is `fn.decoders.image` inside
`create_dali_pipeline` (snn.py lines 103-128), implemented in the DALI
library, outside this repository's sources.  The definitions below are
modelled from the spec. -/

/-- A raw sample: whether its encoded bytes are decodable, and its
label. -/
structure RawSample where
  decodable : Bool
  label : ℕ
  deriving DecidableEq

/-- Distance between two dataset positions. -/
def natDist (a b : ℕ) : ℕ :=
  max a b - min a b

/-- Whether position `j` of the stream holds a decodable sample. -/
def decodableAt (samples : List RawSample) (j : ℕ) : Bool :=
  match samples.get? j with
  | some s => s.decodable
  | none => false

/-- The positions of the decodable samples of the stream. -/
def validIndices (samples : List RawSample) : List ℕ :=
  (List.range samples.length).filter (fun j => decodableAt samples j)

/-- The candidate position closest to `i` (first wins ties). -/
def pickNearest (i : ℕ) : List ℕ → Option ℕ
  | [] => none
  | j :: rest =>
    match pickNearest i rest with
    | none => some j
    | some j' => some (if natDist j i ≤ natDist j' i then j else j')

/-- Modelled from the spec: decoding one sample at position `i`.
Missing from the sources: the decoder's corrupt-image policy.  Per the
spec, undecodable bytes raise a `CorruptImageError` which the pipeline
recovers from by substituting the nearest valid sample and recording
one data-quality event; with no valid sample in reach the failure
stands (`none`).  Returns the decoded sample and the event count. -/
def decodeOne (samples : List RawSample) (i : ℕ) (s : RawSample) :
    Option (RawSample × ℕ) :=
  if s.decodable then some (s, 0)
  else (pickNearest i (validIndices samples)).bind fun j =>
    (samples.get? j).map fun t => (t, 1)

/-- Decode the stream from position `i` on, threading the substitution
policy through every sample and totalling the data-quality events. -/
def decodeFrom (samples : List RawSample) : ℕ → List RawSample →
    Option (List RawSample × ℕ)
  | _, [] => some ([], 0)
  | i, s :: rest =>
    match decodeOne samples i s, decodeFrom samples (i + 1) rest with
    | some (t, e), some (out, events) => some (t :: out, e + events)
    | _, _ => none

/-- One evaluation epoch of the decode stage over the whole stream. -/
def decodeBatch (samples : List RawSample) : Option (List RawSample × ℕ) :=
  decodeFrom samples 0 samples

/-! ## Theorems about the MetricAggregator -/

/-- C3 counterexample: on a freshly reset meter, `update(0, 0)` does not
set the fields as claimed — the recomputation of `avg` divides by zero
and the call raises (`none`). -/
theorem update_total_formula_cex :
    AverageMeter.update ⟨0, 0, 0, 0⟩ 0 0 = none := by
  simp [AverageMeter.update]

/-- C3 (amended): whenever the updated count `count + n` is nonzero,
`update(v, n)` sets `sum` to `sum + v*n`, `count` to `count + n`, `val`
to `v`, and `avg` to the new sum divided by the new count, touching no
other state. -/
theorem update_formula (m : AverageMeter) (v n : ℚ) (h : m.count + n ≠ 0) :
    m.update v n =
      some ⟨v, (m.sum + v * n) / (m.count + n), m.sum + v * n, m.count + n⟩ := by
  simp only [AverageMeter.update]
  rw [if_neg h]

/-- C3 witness: the amended theorem applied to a fresh meter at
`v = 2`, `n = 1`. -/
theorem update_formula_witness :
    (0 : ℚ) + 1 ≠ 0 ∧
      AverageMeter.update ⟨0, 0, 0, 0⟩ 2 1 =
        some ⟨2, ((0 : ℚ) + 2 * 1) / ((0 : ℚ) + 1), (0 : ℚ) + 2 * 1, (0 : ℚ) + 1⟩ :=
  ⟨by norm_num, update_formula ⟨0, 0, 0, 0⟩ 2 1 (by norm_num)⟩

/-- C4: after `reset()`, a single `update(v, 1)` succeeds and yields
`avg == v`. -/
theorem reset_then_update_one (m : AverageMeter) (v : ℚ) :
    ∃ m', AverageMeter.update (AverageMeter.reset m) v 1 = some m' ∧ m'.avg = v := by
  refine ⟨⟨v, (0 + v * 1) / (0 + 1), 0 + v * 1, 0 + 1⟩, ?_, ?_⟩
  · simp only [AverageMeter.update, AverageMeter.reset]
    norm_num
  · simp

/-- C10: `update(v, 0)` on a freshly reset meter recomputes
`avg = sum / count` with `count = 0`: the division raises
(`ZeroDivisionError`), modelled as `none` — the public interface does
not guard against zero total weight. -/
theorem update_zero_weight_after_reset (m : AverageMeter) (v : ℚ) :
    AverageMeter.update (AverageMeter.reset m) v 0 = none := by
  simp [AverageMeter.update, AverageMeter.reset]

/-! ## Theorems about the cross-rank reduction -/

/-- C1 counterexample: in the instance where rank A holds running stats
`(sum=10, count=2)` (average 5) and rank B holds `(sum=100, count=8)`
(average 12.5), the code's reduction of the per-rank values yields
8.75, not the claimed 11.0 — `reduce_tensor` divides the all-reduced
sum by the world size and never reduces `(sum, count)` pairs. -/
theorem reduce_tensor_instance_cex :
    reduce_tensor [10 / 2, 100 / 8] 2 = 35 / 4 ∧
      reduce_tensor [10 / 2, 100 / 8] 2 ≠ 11 := by
  constructor <;> norm_num [reduce_tensor]

/-- C1 (amended): the cross-rank reduction sum-reduces the per-rank
values and divides by the world size (the unweighted mean); applied to
the instance's per-rank averages it produces 8.75, although the
globally correct weighted average `global_sum / global_count` of that
instance is 11. -/
theorem reduce_tensor_unweighted_mean :
    (∀ (vals : List ℚ) (w : ℕ), reduce_tensor vals w = vals.sum / (w : ℚ)) ∧
      reduce_tensor [10 / 2, 100 / 8] 2 = 35 / 4 ∧
      ((10 : ℚ) + 100) / ((2 : ℚ) + 8) = 11 := by
  refine ⟨fun vals w => rfl, ?_, by norm_num⟩
  norm_num [reduce_tensor]

/-! ## Theorems about `accuracy` -/

/-- Inserting into a sorted-by-score list permutes consing. -/
theorem insertDesc_perm (p : ℕ × ℚ) (l : List (ℕ × ℚ)) :
    (insertDesc p l).Perm (p :: l) := by
  induction l with
  | nil => exact List.Perm.refl _
  | cons q rest ih =>
    unfold insertDesc
    by_cases h : q.2 < p.2
    · rw [if_pos h]
    · rw [if_neg h]
      exact (ih.cons q).trans (List.Perm.swap p q rest)

/-- The descending sort permutes its input. -/
theorem sortDesc_perm (l : List (ℕ × ℚ)) : (sortDesc l).Perm l := by
  induction l with
  | nil => exact List.Perm.refl _
  | cons a t ih => exact (insertDesc_perm a (sortDesc t)).trans (ih.cons a)

/-- The predicted index list for one sample never repeats a class. -/
theorem topkPred_nodup (row : List ℚ) (k : ℕ) : (topkPred row k).Nodup := by
  have hperm : ((sortDesc row.enum).map Prod.fst).Perm (row.enum.map Prod.fst) :=
    (sortDesc_perm row.enum).map Prod.fst
  have hnd : ((sortDesc row.enum).map Prod.fst).Nodup :=
    hperm.nodup_iff.mpr (List.nodup_enum_map_fst row)
  exact hnd.sublist (List.take_sublist k _)

/-- In a duplicate-free list, counting an element tests membership. -/
theorem count_eq_ite_mem {α : Type} [DecidableEq α] (l : List α) (a : α)
    (h : l.Nodup) : l.count a = if a ∈ l then 1 else 0 := by
  by_cases hm : a ∈ l
  · rw [if_pos hm]
    exact List.count_eq_one_of_mem h hm
  · rw [if_neg hm]
    exact List.count_eq_zero_of_not_mem hm

/-- Truncating the top-`maxk` prediction recovers the top-`k` one. -/
theorem take_topkPred (row : List ℚ) {k maxk : ℕ} (h : k ≤ maxk) :
    (topkPred row maxk).take k = topkPred row k := by
  simp [topkPred, List.take_take, Nat.min_eq_left h]

/-- Every requested `k` is at most the computed `maxk`. -/
theorem le_foldr_max (l : List ℕ) (k : ℕ) (h : k ∈ l) : k ≤ l.foldr max 0 := by
  induction l with
  | nil => cases h
  | cons a t ih =>
    rcases List.mem_cons.mp h with h | h
    · exact h ▸ le_max_left _ _
    · exact le_trans (ih h) (le_max_right _ _)

/-- Summing boolean indicators counts the satisfying elements. -/
theorem sum_ite_count {α : Type} (l : List α) (p : α → Bool) :
    (l.map (fun x => if p x then (1 : ℕ) else 0)).sum = l.countP p := by
  induction l with
  | nil => rfl
  | cons a t ih =>
    by_cases h : p a
    · simp [List.countP_cons, h, ih]
      omega
    · simp [List.countP_cons, h, ih]

/-- The matched-prediction total of `accuracy` counts the samples whose
label lies among their `k` highest-scoring classes. -/
theorem correct_count_eq (output : List (List ℚ)) (target : List ℕ)
    {k maxk : ℕ} (hk : k ≤ maxk) :
    (((output.map (fun row => topkPred row maxk)).zip target).map
        (fun p => (p.1.take k).count p.2)).sum =
      (output.zip target).countP (fun p => decide (p.2 ∈ topkPred p.1 k)) := by
  rw [List.zip_map_left, List.map_map, ← sum_ite_count]
  congr 1
  apply List.map_congr_left
  intro p _
  simp only [Function.comp, Prod.map, id]
  rw [take_topkPred p.1 hk,
    count_eq_ite_mem (topkPred p.1 k) p.2 (topkPred_nodup p.1 k)]
  simp

/-- C5: for every logits matrix, label vector and list of requested
`k`s, `accuracy` returns, for each `k`, 100 times the fraction of
samples in the batch whose true label is among the `k`
highest-scoring classes of that sample's logits (under the fixed
tie-break of `sortDesc`). -/
theorem accuracy_matches_spec (output : List (List ℚ)) (target : List ℕ)
    (topks : List ℕ) :
    accuracy output target topks =
      topks.map (fun k => topkAccuracySpec output target k) := by
  unfold accuracy topkAccuracySpec
  apply List.map_congr_left
  intro k hk
  rw [correct_count_eq output target (le_foldr_max topks k hk)]
  push_cast
  ring

/-! ## Theorems about top-k monotonicity -/

/-- C6: on every nonempty batch, the computed top-5 accuracy is at
least the computed top-1 accuracy. -/
theorem top5_ge_top1 (output : List (List ℚ)) (target : List ℕ)
    (_h : target ≠ []) :
    ∃ a1 a5, accuracy output target [1, 5] = [a1, a5] ∧ a1 ≤ a5 := by
  refine ⟨_, _, rfl, ?_⟩
  have hc : (((output.map (fun row => topkPred row ([1, 5].foldr max 0))).zip
        target).map (fun p => (p.1.take 1).count p.2)).sum ≤
      (((output.map (fun row => topkPred row ([1, 5].foldr max 0))).zip
        target).map (fun p => (p.1.take 5).count p.2)).sum := by
    apply List.sum_le_sum
    intro p _
    have h15 : (p.1.take 5).take 1 = p.1.take 1 := by
      rw [List.take_take]
      norm_num
    calc (p.1.take 1).count p.2 = ((p.1.take 5).take 1).count p.2 := by rw [h15]
      _ ≤ (p.1.take 5).count p.2 := (List.take_sublist 1 (p.1.take 5)).count_le p.2
  have hnn : (0 : ℚ) ≤ 100 / ((target.length : ℕ) : ℚ) := by positivity
  exact mul_le_mul_of_nonneg_right (by exact_mod_cast hc) hnn

/-- C6 witness: a concrete two-sample batch. -/
theorem top5_ge_top1_witness :
    ∃ a1 a5, accuracy [[1, 0, 3], [2, 5, 4]] [2, 1] [1, 5] = [a1, a5] ∧ a1 ≤ a5 :=
  top5_ge_top1 [[1, 0, 3], [2, 5, 4]] [2, 1] (by decide)

/-! ## Theorems about the CheckpointStore -/

/-- C8: when the path names an existing well-formed checkpoint,
`resume` restores `epoch`, `best_prec1`, the model state and the
optimizer state from it; when the path does not exist, it is non-fatal
and the prior state is unchanged. -/
theorem resume_spec (fs : String → Option Checkpoint) (path : String) (st : RunState) :
    (∀ c, fs path = some c →
        resume fs path st = ⟨c.epoch, c.best_prec1, c.state_dict, c.optimizer⟩) ∧
      (fs path = none → resume fs path st = st) := by
  constructor
  · intro c hc
    simp [resume, hc]
  · intro hc
    simp [resume, hc]

/-- C8 witness: a one-file store, resumed once from the existing path
and once from a missing one. -/
theorem resume_spec_witness :
    resume (fun p => if p = "ckpt" then some ⟨3, 7, 11, 13⟩ else none) "ckpt"
        ⟨0, 0, 0, 0⟩ = ⟨3, 7, 11, 13⟩ ∧
      resume (fun p => if p = "ckpt" then some ⟨3, 7, 11, 13⟩ else none) "other"
        ⟨0, 0, 0, 0⟩ = ⟨0, 0, 0, 0⟩ :=
  ⟨(resume_spec (fun p => if p = "ckpt" then some ⟨3, 7, 11, 13⟩ else none) "ckpt"
      ⟨0, 0, 0, 0⟩).1 ⟨3, 7, 11, 13⟩ (by simp),
   (resume_spec (fun p => if p = "ckpt" then some ⟨3, 7, 11, 13⟩ else none) "other"
      ⟨0, 0, 0, 0⟩).2 (by simp)⟩

/-! ## Theorems about the ShardedDatasetReader -/

/-- C7: constructing the sharded reader fails with a
`ConfigurationError` whenever `W < 1` or `S ≥ W`, before any data is
read. -/
theorem mkShardedReader_invalid_config (T W S : ℕ) (h : W < 1 ∨ S ≥ W) :
    mkShardedReader T W S = .error .configurationError := by
  unfold mkShardedReader
  rcases h with h | h
  · rw [if_pos (Or.inl h)]
  · rw [if_pos (Or.inr h)]

/-- Summing the constant one over a list counts its length. -/
theorem sum_map_one (l : List ℕ) : (l.map (fun _ => (1 : ℕ))).sum = l.length := by
  induction l with
  | nil => rfl
  | cons a t ih =>
    simp [ih]
    omega

/-- A shard's accumulated weight is the size of its real slice: the
padding placeholders all weigh zero. -/
theorem shardWeight_eq (T W S : ℕ) :
    shardWeight T W S = shardStart T W (S + 1) - shardStart T W S := by
  have hcomp : (sampleWeight ∘ fun i => (shardStart T W S + i, false)) =
      fun _ => (1 : ℕ) := by
    funext i
    simp [sampleWeight, Function.comp]
  simp only [shardWeight, shardSamples, List.map_append, List.sum_append,
    List.map_map, hcomp, sum_map_one, List.length_range, List.map_replicate]
  simp [sampleWeight, List.sum_replicate]

/-- Shard boundaries move forward with the shard id. -/
theorem shardStart_mono (T W : ℕ) {S S' : ℕ} (h : S ≤ S') :
    shardStart T W S ≤ shardStart T W S' := by
  unfold shardStart
  exact min_le_min (Nat.mul_le_mul_right _ h) le_rfl

/-- Telescoping a monotone boundary function over `range W`. -/
theorem sum_range_sub_of_monotone (f : ℕ → ℕ) (hf : ∀ n, f n ≤ f (n + 1))
    (h0 : f 0 = 0) (W : ℕ) :
    ((List.range W).map (fun S => f (S + 1) - f S)).sum = f W := by
  induction W with
  | zero => simp [h0]
  | succ n ih =>
    rw [List.range_succ, List.map_append, List.sum_append, ih]
    have := hf n
    simp
    omega

/-- `W` shards of length `⌈T/W⌉` cover at least `T` positions. -/
theorem ceil_mul_ge (T W : ℕ) (hW : 1 ≤ W) : T ≤ W * ((T + W - 1) / W) := by
  have h1 := Nat.div_add_mod (T + W - 1) W
  have h2 : (T + W - 1) % W < W := Nat.mod_lt _ hW
  omega

/-- C2: for `1 ≤ W ≤ T`, the aggregator's total accumulated weight
after one full evaluation epoch equals exactly `T`, even though every
shard is padded to the uniform length `⌈T/W⌉`, because each padded
placeholder carries zero weight. -/
theorem epochWeight_exact (T W : ℕ) (hW : 1 ≤ W) (_hWT : W ≤ T) :
    epochWeight T W = T ∧
      ∀ S p, p ∈ shardSamples T W S → p.2 = true → sampleWeight p = 0 := by
  constructor
  · unfold epochWeight
    simp only [shardWeight_eq]
    rw [sum_range_sub_of_monotone (fun S => shardStart T W S)
      (fun n => shardStart_mono T W (Nat.le_succ n)) (by simp [shardStart])]
    exact min_eq_right (ceil_mul_ge T W hW)
  · intro S p _ hp
    simp [sampleWeight, hp]

/-- C2 witness: `T = 10`, `W = 3`: the shards pad to a uniform length,
yet the total accumulated weight is exactly 10. -/
theorem epochWeight_exact_witness :
    (1 ≤ 3 ∧ 3 ≤ 10) ∧ epochWeight 10 3 = 10 :=
  ⟨⟨by decide, by decide⟩, (epochWeight_exact 10 3 (by decide) (by decide)).1⟩

/-! ## Theorems about the decode substitution policy -/

/-- A position picked as nearest comes from the candidate list. -/
theorem pickNearest_mem (i : ℕ) (l : List ℕ) (j : ℕ)
    (h : pickNearest i l = some j) : j ∈ l := by
  induction l generalizing j with
  | nil => cases h
  | cons a t ih =>
    unfold pickNearest at h
    cases hpt : pickNearest i t with
    | none =>
      rw [hpt] at h
      cases h
      exact List.mem_cons_self a t
    | some j' =>
      rw [hpt] at h
      dsimp only at h
      by_cases hle : natDist a i ≤ natDist j' i
      · rw [if_pos hle] at h
        cases h
        exact List.mem_cons_self a t
      · rw [if_neg hle] at h
        cases h
        exact List.mem_cons_of_mem a (ih _ hpt)

/-- A nonempty candidate list always yields a nearest position. -/
theorem pickNearest_isSome (i : ℕ) (l : List ℕ) (h : l ≠ []) :
    ∃ j, pickNearest i l = some j := by
  cases l with
  | nil => exact absurd rfl h
  | cons a t =>
    unfold pickNearest
    cases pickNearest i t with
    | none => exact ⟨a, rfl⟩
    | some j' => exact ⟨_, rfl⟩

/-- Valid positions hold decodable samples. -/
theorem validIndices_mem (samples : List RawSample) (j : ℕ)
    (h : j ∈ validIndices samples) :
    ∃ t, samples.get? j = some t ∧ t.decodable = true := by
  unfold validIndices at h
  have h2 := (List.mem_filter.mp h).2
  unfold decodableAt at h2
  cases hg : samples.get? j with
  | none => rw [hg] at h2; cases h2
  | some t => rw [hg] at h2; exact ⟨t, rfl, h2⟩

/-- A stream containing one decodable sample has a valid position. -/
theorem validIndices_ne_nil (samples : List RawSample)
    (h : ∃ s ∈ samples, s.decodable = true) : validIndices samples ≠ [] := by
  obtain ⟨s, hs, hdec⟩ := h
  obtain ⟨n, hn⟩ := List.mem_iff_get?.mp hs
  apply List.ne_nil_of_mem (a := n)
  unfold validIndices
  rw [List.mem_filter]
  refine ⟨List.mem_range.mpr ?_, ?_⟩
  · exact (List.get?_eq_some.mp hn).1
  · unfold decodableAt
    rw [hn]
    exact hdec

/-- Decoding one sample succeeds as long as some valid sample exists:
a decodable sample passes through with no event, an undecodable one is
replaced by a decodable substitute and one data-quality event. -/
theorem decodeOne_ok (samples : List RawSample) (i : ℕ) (s : RawSample)
    (h : validIndices samples ≠ []) :
    ∃ t e, decodeOne samples i s = some (t, e) ∧ t.decodable = true ∧
      e = (if s.decodable then 0 else 1) := by
  unfold decodeOne
  cases hs : s.decodable with
  | true => exact ⟨s, 0, by simp, hs, by simp⟩
  | false =>
    obtain ⟨j, hj⟩ := pickNearest_isSome i (validIndices samples) h
    obtain ⟨t, hg, htdec⟩ := validIndices_mem samples j (pickNearest_mem i _ j hj)
    have hg' : samples[j]? = some t := by
      rw [← List.get?_eq_getElem?]
      exact hg
    exact ⟨t, 1, by simp [hj, hg'], htdec, by simp⟩

/-- Decoding any suffix of the stream succeeds, preserves its length,
yields only decodable samples and counts one event per undecodable
input. -/
theorem decodeFrom_spec (samples : List RawSample)
    (h : validIndices samples ≠ []) (rest : List RawSample) :
    ∀ i : ℕ, ∃ out events,
      decodeFrom samples i rest = some (out, events) ∧
      out.length = rest.length ∧
      (∀ t ∈ out, t.decodable = true) ∧
      events = rest.countP (fun s => !s.decodable) := by
  induction rest with
  | nil => exact fun i => ⟨[], 0, rfl, rfl, by simp, by simp⟩
  | cons s rest ih =>
    intro i
    obtain ⟨t, e, hone, htdec, he⟩ := decodeOne_ok samples i s h
    obtain ⟨out, events, hrec, hlen, hdec, hcnt⟩ := ih (i + 1)
    refine ⟨t :: out, e + events, ?_, by simp [hlen], ?_, ?_⟩
    · unfold decodeFrom
      rw [hone, hrec]
    · intro x hx
      rcases List.mem_cons.mp hx with hx | hx
      · exact hx ▸ htdec
      · exact hdec x hx
    · rw [List.countP_cons, he, ← hcnt]
      cases s.decodable <;> simp [Nat.add_comm]

/-- C9: whenever at least one sample of the stream is decodable, the
decode stage substitutes each undecodable sample with a (nearest)
valid one, records one data-quality event per substitution, and never
aborts: it returns a decoded stream of the full length. -/
theorem decodeBatch_never_aborts (samples : List RawSample)
    (h : ∃ s ∈ samples, s.decodable = true) :
    ∃ out events, decodeBatch samples = some (out, events) ∧
      out.length = samples.length ∧
      (∀ t ∈ out, t.decodable = true) ∧
      events = samples.countP (fun s => !s.decodable) :=
  decodeFrom_spec samples (validIndices_ne_nil samples h) samples 0

/-- C9 witness: a stream whose first sample is undecodable. -/
theorem decodeBatch_never_aborts_witness :
    ∃ out events, decodeBatch [⟨false, 0⟩, ⟨true, 1⟩] = some (out, events) ∧
      out.length = ([⟨false, 0⟩, ⟨true, 1⟩] : List RawSample).length ∧
      (∀ t ∈ out, t.decodable = true) ∧
      events = ([⟨false, 0⟩, ⟨true, 1⟩] : List RawSample).countP
        (fun s => !s.decodable) :=
  decodeBatch_never_aborts [⟨false, 0⟩, ⟨true, 1⟩]
    ⟨⟨true, 1⟩, by simp, rfl⟩

/-- C7 witness: both failing configurations, at `W = 0` and at
`S = W = 3`. -/
theorem mkShardedReader_invalid_config_witness :
    ((0 : ℕ) < 1 ∨ (0 : ℕ) ≥ 0) ∧
      mkShardedReader 10 0 0 = .error .configurationError ∧
      ((3 : ℕ) < 1 ∨ (3 : ℕ) ≥ 3) ∧
      mkShardedReader 10 3 3 = .error .configurationError :=
  ⟨Or.inl (by decide), mkShardedReader_invalid_config 10 0 0 (Or.inl (by decide)),
   Or.inr (by decide), mkShardedReader_invalid_config 10 3 3 (Or.inr (by decide))⟩

end Snn
